import Mathlib

/-!
Verification of the LatticeQMC repository (determinantal lattice quantum
Monte-Carlo for the Hubbard model).  The Python sources are shallowly
embedded: numpy arrays become `Matrix (Fin n) (Fin n) ℝ`, the per-slice
Hubbard-Stratonovich field becomes a function `Fin n → ℕ → ℝ`, and
`scipy.linalg.expm` becomes the Mathlib matrix exponential
`NormedSpace.exp ℝ`.  Floating-point arithmetic is modelled by exact real
arithmetic.
-/

open Matrix

namespace LatticeQMC

/-- Square real matrices of size `n`, the embedding of numpy `(N, N)` arrays. -/
abbrev Mat (n : ℕ) : Type := Matrix (Fin n) (Fin n) ℝ

/-- A Hubbard-Stratonovich field configuration: a value for every site
`i : Fin n` and every time slice `l : ℕ` (only `l < L` is ever read).
This embeds the `(N, L)` integer array owned by the `Configuration` class. -/
abbrev Config (n : ℕ) : Type := Fin n → ℕ → ℝ

/-- Modelled from the spec: the `Configuration` class itself is not among the
source files (only its callers are).  Per spec 4.2 its `update(i, l)` is a
deterministic in-place negation of the discrete ±1 field at `(i, l)`. -/
def Config.update {n : ℕ} (c : Config n) (i : Fin n) (l : ℕ) : Config n :=
  fun i' l' => if i' = i ∧ l' = l then -(c i' l') else c i' l'

/-- `scipy.linalg.expm`, embedded as the Mathlib matrix exponential. -/
noncomputable def expm {n : ℕ} (A : Mat n) : Mat n := NormedSpace.exp ℝ A

/-- `LatticeQMC._exp_v(l, sigma, inv)` (lqmc/lqmc.py line 83): fills the
diagonal of a zero matrix with `np.exp(-1*sigma*lamb*config[:, l])` when
`inv` is `true` (the DEFAULT) and with `np.exp(+1*sigma*lamb*config[:, l])`
when `inv` is `false`.  Here `col` is the field column `config[:, l]`. -/
noncomputable def expV {n : ℕ} (lamb sigma : ℝ) (col : Fin n → ℝ) (inv : Bool) :
    Mat n :=
  Matrix.diagonal fun i => Real.exp ((if inv then (-1 : ℝ) else 1) * sigma * lamb * col i)

/-- `LatticeQMC._m(sigma)` (lqmc/lqmc.py lines 109-126).  `expK` stands for the
cached attribute `self.exp_k`.  The code takes `lmax = time_steps - 1`, forms
`b = exp_v(lmax) @ exp_k` (note the order, and note that `_exp_v` is called
without `inv`, so the DEFAULT `inv=True` applies), then for
`l = lmax-1, …, 0` multiplies `b_prod` on the right by `exp_k @ exp_v(l)`,
and returns `I + b_prod`. -/
noncomputable def mMat {n : ℕ} (expK : Mat n) (lamb : ℝ) (config : Config n)
    (L : ℕ) (sigma : ℝ) : Mat n :=
  let lmax := L - 1
  let b0 := expV lamb sigma (fun i => config i lmax) true * expK
  1 + ((List.range lmax).reverse).foldl
    (fun acc l => acc * (expK * expV lamb sigma (fun i => config i l) true)) b0

/-- `LatticeQMC._m_cyclic(sigma, l)` (lqmc/lqmc.py lines 128-149): same as
`_m` but rooted at slice `l`: starts from `exp_v(l) @ exp_k`, then multiplies
by `exp_k @ exp_v(l_loop)` for `l_loop = l-1, …, 0` and afterwards for
`l_loop = L-1, …, l+1`, and returns `I + b_prod`. -/
noncomputable def mMatCyclic {n : ℕ} (expK : Mat n) (lamb : ℝ) (config : Config n)
    (L : ℕ) (sigma : ℝ) (l : ℕ) : Mat n :=
  let b0 := expV lamb sigma (fun i => config i l) true * expK
  let p1 := ((List.range l).reverse).foldl
    (fun acc j => acc * (expK * expV lamb sigma (fun i => config i j) true)) b0
  1 + ((List.range' (l + 1) (L - (l + 1))).reverse).foldl
    (fun acc j => acc * (expK * expV lamb sigma (fun i => config i j) true)) p1

/-- `compute_m(ham_kin, config, lamb, dtau, sigma)` (mc_fast.py lines 31-55).
Computes `exp_k = expm(dtau * ham_kin)` internally; the per-slice factor is
`expm(sigma*lamb*V_l)` for the diagonal matrix `V_l = diag(config[:, l])`
(the exponential of a diagonal matrix is the diagonal of entrywise
exponentials, see `expm_diagonal` below).  The first factor is
`b = exp_k @ exp_v(lmax)` with `lmax = n_t - 1`, and the loop runs over
`reversed(range(1, lmax))` — slices `lmax-1` down to `1`. -/
noncomputable def compute_m {n : ℕ} (ham_kin : Mat n) (config : Config n)
    (lamb dtau : ℝ) (L : ℕ) (sigma : ℝ) : Mat n :=
  let expK := expm (dtau • ham_kin)
  let lmax := L - 1
  let b0 := expK * Matrix.diagonal (fun i => Real.exp (sigma * lamb * config i lmax))
  1 + ((List.range' 1 (lmax - 1)).reverse).foldl
    (fun acc l => acc * (expK * Matrix.diagonal fun i => Real.exp (sigma * lamb * config i l))) b0

/-- The M matrix as the specification states it (spec 3 and 4.4): one factor
`B_σ(l) = exp(σλV(l)) · exp(Δτ·H_kin)` per slice, ordered
`B(L-1) · B(L-2) · … · B(0)`, and `M = I + product`.  `expK` stands for
`exp(Δτ·H_kin)`.  This definition follows the spec's words and is the
comparison point for the refinement claim C4. -/
noncomputable def mSpec {n : ℕ} (expK : Mat n) (lamb : ℝ) (config : Config n)
    (L : ℕ) (sigma : ℝ) : Mat n :=
  1 + ((List.range L).reverse).foldl
    (fun acc l => acc * (Matrix.diagonal (fun i => Real.exp (sigma * lamb * config i l)) * expK)) 1

/-- `LatticeQMC._gf_tau` inner recursion (lqmc/lqmc.py lines 151-169): the
array entry `g[l]`.  `g[0] = g_beta`; for `l ≥ 1` the code binds
`exp_v = self._exp_v(l, sigma)` (DEFAULT `inv=True`) and
`exp_v_inv = self._exp_v(l, sigma, inv=True)`, then
`b = exp_v @ exp_k`, `b_inv = exp_v_inv @ exp_k_inv`, and
`g[l] = b_inv @ g[l-1] @ b`.  `expK`, `expKinv` stand for the cached
attributes `self.exp_k`, `self.exp_k_inv`. -/
noncomputable def gfTauRec {n : ℕ} (expK expKinv : Mat n) (lamb : ℝ)
    (config : Config n) (sigma : ℝ) (gBeta : Mat n) : ℕ → Mat n
  | 0 => gBeta
  | Nat.succ l =>
      let ev := expV lamb sigma (fun i => config i (l + 1)) true
      let evinv := expV lamb sigma (fun i => config i (l + 1)) true
      (evinv * expKinv) * gfTauRec expK expKinv lamb config sigma gBeta l * (ev * expK)

/-- `LatticeQMC._gf_tau` (lqmc/lqmc.py lines 151-169): returns the array
`g[::-1]`, i.e. slice `j` of the returned array is `g[L-1-j]`. -/
noncomputable def gfTauArr {n : ℕ} (expK expKinv : Mat n) (lamb : ℝ)
    (config : Config n) (sigma : ℝ) (gBeta : Mat n) (L : ℕ) : ℕ → Mat n :=
  fun j => gfTauRec expK expKinv lamb config sigma gBeta (L - 1 - j)

/-- numpy `arccosh`, i.e. `log (x + sqrt (x² - 1))`. -/
noncomputable def arccosh (x : ℝ) : ℝ := Real.log (x + Real.sqrt (x ^ 2 - 1))

/-- `LatticeQMC.__init__` line 52: `self.lamb = np.arccosh(np.exp(u*dtau/2))
if self.model.u else 1`.  A Python float is truthy iff it is nonzero. -/
noncomputable def lambdaOf (u dtau : ℝ) : ℝ :=
  if u ≠ 0 then arccosh (Real.exp (u * dtau / 2)) else 1

/-- `LatticeQMC.__init__` line 53: `self.exp_k = expm(+1 * dtau * ham_kin)`. -/
noncomputable def expKinit {n : ℕ} (dtau : ℝ) (hamKin : Mat n) : Mat n :=
  expm (dtau • hamKin)

/-- `LatticeQMC.__init__` line 55: `self.exp_k_inv = expm(+1 * dtau *
ham_kin)` — note the sign, identical to line 53. -/
noncomputable def expKinvInit {n : ℕ} (dtau : ℝ) (hamKin : Mat n) : Mat n :=
  expm (dtau • hamKin)

/-- The fast-mode acceptance ratio (lqmc/lqmc.py lines 343-347 and 374-379,
mc_fast.py lines 117-121): `d_up * d_dn` with
`d_σ = 1 + (1 - inv(m_σ)[i,i]) * (exp(∓arg) - 1)` and
`arg = 2 * lamb * config[i, l]`, where `m_σ` is `_m(σ)` for the CURRENT
configuration.  `expK` stands for the cached `self.exp_k`. -/
noncomputable def fastRatio {n : ℕ} (expK : Mat n) (lamb : ℝ) (config : Config n)
    (L : ℕ) (i : Fin n) (l : ℕ) : ℝ :=
  let mUp := mMat expK lamb config L 1
  let mDn := mMat expK lamb config L (-1)
  let arg := 2 * lamb * config i l
  let dUp := 1 + (1 - mUp⁻¹ i i) * (Real.exp (-arg) - 1)
  let dDn := 1 + (1 - mDn⁻¹ i i) * (Real.exp arg - 1)
  dUp * dDn

/-- The slow-mode acceptance ratio for the flip at `(i, l)` (lqmc/lqmc.py
lines 220-224): flip the configuration, recompute `_m` for both spins, and
take `new / old` with `new` and `old` the products of the two determinants
after and before the flip. -/
noncomputable def detRecomputeRatio {n : ℕ} (expK : Mat n) (lamb : ℝ)
    (config : Config n) (L : ℕ) (i : Fin n) (l : ℕ) : ℝ :=
  let c1 := Config.update config i l
  ((mMat expK lamb c1 L 1).det * (mMat expK lamb c1 L (-1)).det) /
    ((mMat expK lamb config L 1).det * (mMat expK lamb config L (-1)).det)

/-- The rank-1 Green's-function update applied on acceptance, for one spin
(lqmc/lqmc.py lines 383-393, mc_fast.py lines 126-137):
`c = -delta * g[i, :] + delta * e_i`, `b = g[:, i] / (1 + c[i])`,
`g ← g - outer(b, c)`; the spin-up call passes `delta = exp(-arg) - 1`, the
spin-down call `delta = exp(+arg) - 1`. -/
noncomputable def smUpdate {n : ℕ} (g : Mat n) (i : Fin n) (delta : ℝ) : Mat n :=
  let c : Fin n → ℝ := fun j => -1 * delta * g i j + (if j = i then delta else 0)
  let b : Fin n → ℝ := fun j => g j i / (1 + c i)
  g - Matrix.of fun j k => b j * c k

/-- The configuration-object state of `warmup_loop_det` (lqmc/lqmc.py lines
211-232), tracking Python object identity: `cur` holds the values of the
object currently bound to `self.config`, `oldc` the values of the object
bound to `old_config`, and `aliased` is `true` exactly when the two names are
bound to the SAME object (as happens after `self.config = old_config`). -/
structure DetWarmupConfigState (n : ℕ) where
  cur : Config n
  oldc : Config n
  aliased : Bool

/-- State at entry of the `warmup_loop_det` loop (lines 214-216):
`old_config = self.config.copy()` is a fresh object with equal values. -/
def detWarmupInit {n : ℕ} (c : Config n) : DetWarmupConfigState n :=
  { cur := c, oldc := c, aliased := false }

/-- One iteration of `warmup_loop_det` (lqmc/lqmc.py lines 218-232) as it
acts on the configuration objects.  `self.config.update(i, l)` mutates the
object bound to `self.config` in place — when the two names are aliased this
also changes `old_config`.  On acceptance `old_config = self.config.copy()`
binds a fresh copy; on rejection `self.config = old_config` aliases the two
names.  The Metropolis decision `np.random.rand() < ratio` is abstracted
into the Boolean `accept`, since the claim quantifies over all
accept/reject outcomes. -/
def detWarmupStep {n : ℕ} (s : DetWarmupConfigState n) (i : Fin n) (l : ℕ)
    (accept : Bool) : DetWarmupConfigState n :=
  let cur1 := Config.update s.cur i l
  let oldc1 := if s.aliased then Config.update s.oldc i l else s.oldc
  if accept then { cur := cur1, oldc := cur1, aliased := false }
  else { cur := oldc1, oldc := oldc1, aliased := true }

/-- Loop state of `measure_loop_det` (lqmc/lqmc.py lines 234-308): the
configuration, the copy `old_config`, the last accepted weight `old`, the
per-slice Green's functions `g_up`/`g_dn`, the running totals
`g_total_up`/`g_total_dn`, and the iteration counter `number`. -/
structure DetMeasState (n : ℕ) where
  config : Config n
  oldConfig : Config n
  oldW : ℝ
  gUp : ℕ → Mat n
  gDn : ℕ → Mat n
  totUp : ℕ → Mat n
  totDn : ℕ → Mat n
  number : ℕ

/-- Initial state of `measure_loop_det` (lines 246-262): `old` is the product
of the two determinants of `_m`, `g_up[-1]` (slice `L-1`) is `inv(m_up)`, all
other slices of `g_up`/`g_dn` are zero, totals are zero and `number = 0`. -/
noncomputable def detMeasInit {n : ℕ} (expK : Mat n) (lamb : ℝ)
    (config : Config n) (L : ℕ) : DetMeasState n :=
  let mUp := mMat expK lamb config L 1
  let mDn := mMat expK lamb config L (-1)
  { config := config
    oldConfig := config
    oldW := mUp.det * mDn.det
    gUp := fun l => if l = L - 1 then mUp⁻¹ else 0
    gDn := fun l => if l = L - 1 then mDn⁻¹ else 0
    totUp := fun _ => 0
    totDn := fun _ => 0
    number := 0 }

/-- One iteration of `measure_loop_det` (lqmc/lqmc.py lines 270-295): flip
`(i, l)`, rebuild the cyclic M matrices, accept iff the uniform draw `u`
satisfies `u < new/old` (then store the inverses in slice `l` and copy the
configuration), otherwise flip `(i, l)` back; afterwards — in both cases —
add `g_up[l]`/`g_dn[l]` into the slice-`l` totals and increment `number`. -/
noncomputable def detMeasStep {n : ℕ} (expK : Mat n) (lamb : ℝ) (L : ℕ)
    (s : DetMeasState n) (i : Fin n) (l : ℕ) (u : ℝ) : DetMeasState n :=
  let c1 := Config.update s.config i l
  let mUp := mMatCyclic expK lamb c1 L 1 l
  let mDn := mMatCyclic expK lamb c1 L (-1) l
  let newW := mUp.det * mDn.det
  let s1 : DetMeasState n :=
    if u < newW / s.oldW then
      { s with
        config := c1
        oldConfig := c1
        oldW := newW
        gUp := Function.update s.gUp l mUp⁻¹
        gDn := Function.update s.gDn l mDn⁻¹ }
    else
      { s with config := Config.update c1 i l }
  { s1 with
    totUp := fun l' => if l' = l then s1.totUp l' + s1.gUp l' else s1.totUp l'
    totDn := fun l' => if l' = l then s1.totDn l' + s1.gDn l' else s1.totDn l'
    number := s1.number + 1 }

/-- The full `measure_loop_det` iteration structure (lines 267-270): for each
sweep, slices from `L-1` down to `0`, and within a slice sites in index
order.  The uniform draws are the input sequence `draws`, consumed one per
iteration (indexed by the running iteration counter). -/
noncomputable def detMeasRun {n : ℕ} (expK : Mat n) (lamb : ℝ) (L sweeps : ℕ)
    (draws : ℕ → ℝ) (s0 : DetMeasState n) : DetMeasState n :=
  (List.range sweeps).foldl (fun s _ =>
    ((List.range L).reverse).foldl (fun s l =>
      (List.finRange n).foldl
        (fun s i => detMeasStep expK lamb L s i l (draws s.number)) s) s) s0

/-- `measure_loop_det`'s return value (lqmc/lqmc.py lines 304-308): the
totals divided by `number` and multiplied by `time_steps`. -/
noncomputable def measureLoopDet {n : ℕ} (expK : Mat n) (lamb : ℝ)
    (config : Config n) (L sweeps : ℕ) (draws : ℕ → ℝ) :
    (ℕ → Mat n) × (ℕ → Mat n) :=
  let s := detMeasRun expK lamb L sweeps draws (detMeasInit expK lamb config L)
  (fun l => ((s.number : ℝ)⁻¹ * (L : ℝ)) • s.totUp l,
   fun l => ((s.number : ℝ)⁻¹ * (L : ℝ)) • s.totDn l)

/-- Loop state of the fast `measure_loop` (lqmc/lqmc.py lines 352-404). -/
structure FastMeasState (n : ℕ) where
  config : Config n
  gBetaUp : Mat n
  gBetaDn : Mat n
  gTmpUp : ℕ → Mat n
  gTmpDn : ℕ → Mat n
  totUp : ℕ → Mat n
  totDn : ℕ → Mat n
  number : ℕ

/-- Initial state of `measure_loop` (lines 363-369): `g_beta_σ = inv(_m(σ))`
and `g_tmp` the per-slice chain `_compute_gf_tau` built from them; the
totals start at (numpy scalar) zero. -/
noncomputable def fastMeasInit {n : ℕ} (expK expKinv : Mat n) (lamb : ℝ)
    (config : Config n) (L : ℕ) : FastMeasState n :=
  let gBU := (mMat expK lamb config L 1)⁻¹
  let gBD := (mMat expK lamb config L (-1))⁻¹
  { config := config
    gBetaUp := gBU
    gBetaDn := gBD
    gTmpUp := gfTauArr expK expKinv lamb config 1 gBU L
    gTmpDn := gfTauArr expK expKinv lamb config (-1) gBD L
    totUp := fun _ => 0
    totDn := fun _ => 0
    number := 0 }

/-- One iteration of the fast `measure_loop` (lqmc/lqmc.py lines 373-402):
compute the fast ratio from the freshly rebuilt M matrices; if the draw `u`
accepts, apply the rank-1 update to both `g_beta`, recompute the per-slice
chain `g_tmp` (with the configuration still unflipped, exactly as in the
source, where `config.update` comes last), and flip the configuration;
in both cases add the whole `g_tmp` array into the totals and increment
`number`. -/
noncomputable def fastMeasStep {n : ℕ} (expK expKinv : Mat n) (lamb : ℝ)
    (L : ℕ) (s : FastMeasState n) (i : Fin n) (l : ℕ) (u : ℝ) : FastMeasState n :=
  let arg := 2 * lamb * s.config i l
  let s1 : FastMeasState n :=
    if u < fastRatio expK lamb s.config L i l then
      let gBU := smUpdate s.gBetaUp i (Real.exp (-arg) - 1)
      let gBD := smUpdate s.gBetaDn i (Real.exp arg - 1)
      { s with
        gBetaUp := gBU
        gBetaDn := gBD
        gTmpUp := gfTauArr expK expKinv lamb s.config 1 gBU L
        gTmpDn := gfTauArr expK expKinv lamb s.config (-1) gBD L
        config := Config.update s.config i l }
    else s
  { s1 with
    totUp := fun j => s1.totUp j + s1.gTmpUp j
    totDn := fun j => s1.totDn j + s1.gTmpDn j
    number := s1.number + 1 }

/-- The full fast `measure_loop` iteration structure: `loop_generator`
iterates, per sweep, `itertools.product(range(n_sites), range(time_steps))` —
sites outer, slices inner. -/
noncomputable def fastMeasRun {n : ℕ} (expK expKinv : Mat n) (lamb : ℝ)
    (L sweeps : ℕ) (draws : ℕ → ℝ) (s0 : FastMeasState n) : FastMeasState n :=
  (List.range sweeps).foldl (fun s _ =>
    (List.finRange n).foldl (fun s i =>
      (List.range L).foldl
        (fun s l => fastMeasStep expK expKinv lamb L s i l (draws s.number)) s) s) s0

/-- `measure_loop`'s return value (lqmc/lqmc.py line 404): the totals divided
by `number`. -/
noncomputable def measureLoopFast {n : ℕ} (expK expKinv : Mat n) (lamb : ℝ)
    (config : Config n) (L sweeps : ℕ) (draws : ℕ → ℝ) :
    (ℕ → Mat n) × (ℕ → Mat n) :=
  let s := fastMeasRun expK expKinv lamb L sweeps draws
    (fastMeasInit expK expKinv lamb config L)
  (fun j => ((s.number : ℝ)⁻¹) • s.totUp j,
   fun j => ((s.number : ℝ)⁻¹) • s.totDn j)

/-- `Hamiltonian.buildGraph(L, dim=1)` edge list (Hamiltonian.py lines 18-32):
`[0,1], [1,2], …, [L-2,L-1]` then `[L-1, 0]`. -/
def buildGraphEdges (L : ℕ) : List (ℕ × ℕ) :=
  ((List.range (L - 1)).map fun i => (i, i + 1)) ++ [(L - 1, 0)]

/-- `Hamiltonian.buildGraph(L, dim=1)` site list: `[0, 1, …, L-1]`. -/
def buildGraphSites (L : ℕ) : List ℕ := List.range L

/-- A single numpy assignment `K[r, c] = v` on a matrix represented as a
function. -/
def writeEntry (K : ℕ → ℕ → ℝ) (r c : ℕ) (v : ℝ) : ℕ → ℕ → ℝ :=
  fun r' c' => if r' = r ∧ c' = c then v else K r' c'

/-- The local matrix `K` as `Hamiltonian.buildK` (Hamiltonian.py lines 41-60)
fills it: starting from zeros, for each edge `[a, b]` it sets
`K[a, b] = t` and `K[b, a] = t` (note: `+t`), then for each site `s` it sets
`K[s, s] = U/2 - mu` (twice, as in the source). -/
noncomputable def buildKMatrix (L : ℕ) (U t mu : ℝ) : ℕ → ℕ → ℝ :=
  let K0 : ℕ → ℕ → ℝ := fun _ _ => 0
  let K1 := (buildGraphEdges L).foldl
    (fun K e => writeEntry (writeEntry K e.1 e.2 t) e.2 e.1 t) K0
  (buildGraphSites L).foldl
    (fun K s => writeEntry (writeEntry K s s (U / 2 - mu)) s s (U / 2 - mu)) K1

/-- `Hamiltonian.buildK` (Hamiltonian.py lines 41-60): the function fills the
local `K`, prints it, and falls off the end without a `return` statement, so
its value is Python's `None` — embedded as `none`.  (The filled local matrix
itself is `buildKMatrix` above; `__init__` line 14 assigns
`self.K = self.buildK()`.) -/
def buildK (_L : ℕ) (_U _t _mu : ℝ) : Option (ℕ → ℕ → ℝ) := none

/-! ### Concrete instance data used by the claim theorems -/

/-- The all-ones field configuration on one site. -/
def cfgOne : Config 1 := fun _ _ => 1

/-- The 1×1 kinetic Hamiltonian with on-site entry `U/2 - mu = 1`. -/
noncomputable def ham1 : Mat 1 := Matrix.diagonal fun _ => 1

/-- The two-site kinetic Hamiltonian `(log 3 / 2) • [[1,1],[1,1]]`.  This is
the spec-form `H_kin = [[U/2-mu, -t],[-t, U/2-mu]]` for the two-site chain
with `U = 0` (hence `lamb = 1` in the constructor), `mu = -log 3 / 2` and
`t = -log 3 / 2`. -/
noncomputable def ham2 : Mat 2 := (Real.log 3 / 2) • !![1, 1; 1, 1]

/-- `expm(1 * ham2) = [[2,1],[1,2]]` (proved below as `expm_ham2`): the
cached `self.exp_k` for the `ham2` solver state with `dtau = 1`. -/
def K2 : Mat 2 := !![2, 1; 1, 2]

/-- A two-site, three-slice field configuration with columns
`(+1,+1)`, `(+1,-1)`, `(-1,+1)` — all values in {−1, +1}. -/
def cfg3 : Config 2 := fun i l =>
  if l = 1 then (if i = 0 then 1 else -1)
  else if l = 2 then (if i = 0 then -1 else 1)
  else 1

/-! ### Helper lemmas -/

/-- The matrix exponential of a diagonal matrix is the diagonal matrix of the
entrywise exponentials (this is how `expm(sigma*lamb*V_l)` in mc_fast.py is
evaluated throughout). -/
lemma expm_diagonal {n : ℕ} (v : Fin n → ℝ) :
    expm (Matrix.diagonal v) = Matrix.diagonal fun i => Real.exp (v i) := by
  unfold expm
  rw [Matrix.exp_diagonal]
  have h : NormedSpace.exp ℝ v = fun i => Real.exp (v i) := by
    funext i
    rw [Pi.coe_exp, ← Real.exp_eq_exp_ℝ]
  rw [h]

/-- `expm` of the zero matrix is the identity. -/
lemma expm_zero {n : ℕ} : expm (0 : Mat n) = 1 := by
  unfold expm
  exact NormedSpace.exp_zero

/-- Entry of the inverse of a 1×1 matrix. -/
lemma inv_entry_one {A : Mat 1} : A⁻¹ 0 0 = (A 0 0)⁻¹ := by
  rw [Matrix.inv_def, Matrix.adjugate_fin_one, Matrix.det_fin_one]
  simp [Ring.inverse_eq_inv']

/-- Entry of a product of 1×1 matrices. -/
lemma mul_entry_one (A B : Mat 1) : (A * B) 0 0 = A 0 0 * B 0 0 := by
  rw [Matrix.mul_apply]
  exact Fin.sum_univ_one _

/-- Scalar form of the rank-1 update at a single site: the updated entry is
`g / (1 + delta*(1-g))`. -/
lemma smUpdate_entry_val (g delta : ℝ) (h : 1 + delta * (1 - g) ≠ 0) :
    g - g / (1 + (-1 * delta * g + delta)) * (-1 * delta * g + delta)
      = g / (1 + delta * (1 - g)) := by
  have h' : (1 : ℝ) + (-1 * delta * g + delta) = 1 + delta * (1 - g) := by ring
  rw [h']
  field_simp
  ring

/-- `expm(dtau * ham_kin)` for the one-site model with vanishing on-site
entry (`U = 0`, `mu = 0`, so `ham_kin = [[0]]`) is the identity; with `U = 0`
the constructor also sets `lamb = 1`.  This realizes the solver state
`exp_k = I`, `lamb = 1` used at the concrete inputs below. -/
lemma expKinit_zero : expKinit (1 : ℝ) (0 : Mat 1) = 1 := by
  unfold expKinit
  rw [smul_zero, expm_zero]

/-- Entry of `_m` for one site and a single time slice (`L = 1`):
`M = 1 + exp_v(0) * exp_k` with the `inv=True` default sign. -/
lemma mMat_L1_entry (lamb sigma : ℝ) (c : Config 1) :
    (mMat (1 : Mat 1) lamb c 1 sigma) 0 0
      = 1 + Real.exp (-1 * sigma * lamb * c 0 0) := by
  simp [mMat, expV, Matrix.add_apply, Matrix.one_apply_eq, Matrix.mul_one,
    Matrix.diagonal_apply_eq]

/-- Entry of `_m` for one site and two time slices (`L = 2`). -/
lemma mMat_L2_entry (lamb sigma : ℝ) (c : Config 1) :
    (mMat (1 : Mat 1) lamb c 2 sigma) 0 0
      = 1 + Real.exp (-1 * sigma * lamb * c 0 1) * Real.exp (-1 * sigma * lamb * c 0 0) := by
  simp [mMat, expV, List.range_succ, Matrix.add_apply, Matrix.one_apply_eq,
    Matrix.mul_one, Matrix.one_mul, Matrix.diagonal_mul_diagonal,
    Matrix.diagonal_apply_eq]

/-- Entry of `_m_cyclic` for one site, two time slices, rooted at slice 0. -/
lemma mMatCyclic_L2_root0_entry (lamb sigma : ℝ) (c : Config 1) :
    (mMatCyclic (1 : Mat 1) lamb c 2 sigma 0) 0 0
      = 1 + Real.exp (-1 * sigma * lamb * c 0 0) * Real.exp (-1 * sigma * lamb * c 0 1) := by
  simp [mMatCyclic, expV, List.range_succ, List.range', Matrix.add_apply,
    Matrix.one_apply_eq, Matrix.mul_one, Matrix.one_mul,
    Matrix.diagonal_mul_diagonal, Matrix.diagonal_apply_eq]

/-- Entry of `_m_cyclic` for one site, two time slices, rooted at slice 1. -/
lemma mMatCyclic_L2_root1_entry (lamb sigma : ℝ) (c : Config 1) :
    (mMatCyclic (1 : Mat 1) lamb c 2 sigma 1) 0 0
      = 1 + Real.exp (-1 * sigma * lamb * c 0 1) * Real.exp (-1 * sigma * lamb * c 0 0) := by
  simp [mMatCyclic, expV, List.range_succ, List.range', Matrix.add_apply,
    Matrix.one_apply_eq, Matrix.mul_one, Matrix.one_mul,
    Matrix.diagonal_mul_diagonal, Matrix.diagonal_apply_eq]

/-- Realizability of the `K2` solver state: `expm(1 * ham2) = [[2,1],[1,2]]`,
so `K2` is exactly the cached `self.exp_k` for the two-site model `ham2` with
`dtau = 1` (diagonalize `ham2 = P · diag(log 3, 0) · P⁻¹`). -/
lemma expm_ham2 : expKinit 1 ham2 = K2 := by
  show expm ((1 : ℝ) • ham2) = K2
  unfold ham2 K2
  have hu1 : (!![1,1;1,-1] : Mat 2) * !![(1:ℝ)/2, 1/2; 1/2, -(1/2)] = 1 := by
    ext i j
    fin_cases i <;> fin_cases j <;>
      simp [Matrix.mul_apply, Fin.sum_univ_two, Matrix.one_apply] <;> norm_num
  have hu2 : (!![(1:ℝ)/2, 1/2; 1/2, -(1/2)] : Mat 2) * !![1,1;1,-1] = 1 := by
    ext i j
    fin_cases i <;> fin_cases j <;>
      simp [Matrix.mul_apply, Fin.sum_univ_two, Matrix.one_apply] <;> norm_num
  let u : (Mat 2)ˣ := ⟨!![1,1;1,-1], !![(1:ℝ)/2, 1/2; 1/2, -(1/2)], hu1, hu2⟩
  have hconj : (1 : ℝ) • ((Real.log 3 / 2) • (!![1,1;1,1] : Mat 2))
      = (u : Mat 2) * Matrix.diagonal ![Real.log 3, 0] * ((u⁻¹ : (Mat 2)ˣ) : Mat 2) := by
    show _ = !![1,1;1,-1] * Matrix.diagonal ![Real.log 3, 0] * !![(1:ℝ)/2, 1/2; 1/2, -(1/2)]
    ext i j
    fin_cases i <;> fin_cases j <;>
      simp [Matrix.mul_apply, Matrix.vecMul, Matrix.dotProduct, Fin.sum_univ_two,
        Matrix.diagonal_apply, Matrix.smul_apply] <;> ring
  rw [hconj]
  unfold expm
  rw [Matrix.exp_units_conj ℝ u]
  have hd : NormedSpace.exp ℝ (Matrix.diagonal ![Real.log 3, 0])
      = Matrix.diagonal ![(3 : ℝ), 1] := by
    have h1 := expm_diagonal (![Real.log 3, 0])
    unfold expm at h1
    rw [h1]
    ext i j
    fin_cases i <;> fin_cases j <;>
      norm_num [Matrix.diagonal_apply, Real.exp_zero, Real.exp_log]
  rw [hd]
  show !![1,1;1,-1] * Matrix.diagonal ![(3:ℝ), 1] * !![(1:ℝ)/2, 1/2; 1/2, -(1/2)] = _
  ext i j
  fin_cases i <;> fin_cases j <;>
    simp [Matrix.mul_apply, Matrix.vecMul, Matrix.dotProduct, Fin.sum_univ_two,
      Matrix.diagonal_apply] <;> norm_num

/-- `_m` on the `cfg3` state unfolds to the literal three-factor product. -/
lemma mMat_cfg3_unfold : mMat K2 1 cfg3 3 1
    = 1 + ((expV 1 1 (fun i => cfg3 i 2) true * K2)
        * (K2 * expV 1 1 (fun i => cfg3 i 1) true))
        * (K2 * expV 1 1 (fun i => cfg3 i 0) true) := rfl

/-- `_m_cyclic` rooted at slice 1 on the `cfg3` state unfolds to the literal
three-factor product. -/
lemma mMatCyclic_cfg3_unfold : mMatCyclic K2 1 cfg3 3 1 1
    = 1 + ((expV 1 1 (fun i => cfg3 i 1) true * K2)
        * (K2 * expV 1 1 (fun i => cfg3 i 0) true))
        * (K2 * expV 1 1 (fun i => cfg3 i 2) true) := rfl

/-- Field-exponential of `cfg3` column 0 (spin up, `lamb = 1`). -/
lemma expV_cfg3_col0 : expV 1 1 (fun i => cfg3 i 0) true
    = !![Real.exp (-1), 0; 0, Real.exp (-1)] := by
  ext i j
  fin_cases i <;> fin_cases j <;>
    simp [expV, cfg3, Matrix.diagonal_apply]

/-- Field-exponential of `cfg3` column 1 (spin up, `lamb = 1`). -/
lemma expV_cfg3_col1 : expV 1 1 (fun i => cfg3 i 1) true
    = !![Real.exp (-1), 0; 0, Real.exp 1] := by
  ext i j
  fin_cases i <;> fin_cases j <;>
    simp [expV, cfg3, Matrix.diagonal_apply]

/-- Field-exponential of `cfg3` column 2 (spin up, `lamb = 1`). -/
lemma expV_cfg3_col2 : expV 1 1 (fun i => cfg3 i 2) true
    = !![Real.exp 1, 0; 0, Real.exp (-1)] := by
  ext i j
  fin_cases i <;> fin_cases j <;>
    simp [expV, cfg3, Matrix.diagonal_apply]

/-- The determinant difference between the direct and the re-rooted product
as a polynomial identity: it equals `4a(a-b)²`, which is nonzero whenever
`a ≠ b`. -/
lemma det_diff_poly (a b : ℝ) :
    ((1 : Mat 2) + (!![b,0;0,a] * K2) * (K2 * !![a,0;0,b]) * (K2 * !![a,0;0,a])).det
      - ((1 : Mat 2) + (!![a,0;0,b] * K2) * (K2 * !![a,0;0,a]) * (K2 * !![b,0;0,a])).det
      = 4 * a * (a - b) ^ 2 := by
  simp [Matrix.det_fin_two, Matrix.mul_apply, Fin.sum_univ_two,
    Matrix.one_apply, Matrix.add_apply, K2]
  ring

/-- One det-mode measurement iteration increments `number` by exactly one,
for every draw — accepted or not. -/
lemma detMeasStep_number {n : ℕ} (expK : Mat n) (lamb : ℝ) (L : ℕ)
    (s : DetMeasState n) (i : Fin n) (l : ℕ) (u : ℝ) :
    (detMeasStep expK lamb L s i l u).number = s.number + 1 := by
  simp only [detMeasStep]
  rw [apply_ite DetMeasState.number]
  simp

/-- One det-mode measurement iteration adds the current `g_up[l]` into the
slice-`l` total — for every draw, accepted or not. -/
lemma detMeasStep_totUp {n : ℕ} (expK : Mat n) (lamb : ℝ) (L : ℕ)
    (s : DetMeasState n) (i : Fin n) (l : ℕ) (u : ℝ) :
    (detMeasStep expK lamb L s i l u).totUp l
      = s.totUp l + (detMeasStep expK lamb L s i l u).gUp l := by
  simp only [detMeasStep]
  rw [apply_ite (fun st : DetMeasState n => st.totUp l),
    apply_ite (fun st : DetMeasState n => st.gUp l)]
  by_cases h : u < (mMatCyclic expK lamb (Config.update s.config i l) L 1 l).det
      * (mMatCyclic expK lamb (Config.update s.config i l) L (-1) l).det / s.oldW
  · simp [h]
  · simp [h]

/-- A det-mode iteration at slice `l` leaves the totals of other slices
unchanged. -/
lemma detMeasStep_totUp_ne {n : ℕ} (expK : Mat n) (lamb : ℝ) (L : ℕ)
    (s : DetMeasState n) (i : Fin n) (l l' : ℕ) (u : ℝ) (h : l' ≠ l) :
    (detMeasStep expK lamb L s i l u).totUp l' = s.totUp l' := by
  simp only [detMeasStep]
  rw [apply_ite (fun st : DetMeasState n => st.totUp l')]
  simp [h]

/-- One fast-mode measurement iteration increments `number` by exactly one,
for every draw — accepted or not. -/
lemma fastMeasStep_number {n : ℕ} (expK expKinv : Mat n) (lamb : ℝ) (L : ℕ)
    (s : FastMeasState n) (i : Fin n) (l : ℕ) (u : ℝ) :
    (fastMeasStep expK expKinv lamb L s i l u).number = s.number + 1 := by
  simp only [fastMeasStep]
  rw [apply_ite FastMeasState.number]
  simp

/-- One fast-mode measurement iteration adds the whole currently-cached
`g_tmp` array into the totals — for every draw, accepted or not. -/
lemma fastMeasStep_totUp {n : ℕ} (expK expKinv : Mat n) (lamb : ℝ) (L : ℕ)
    (s : FastMeasState n) (i : Fin n) (l j : ℕ) (u : ℝ) :
    (fastMeasStep expK expKinv lamb L s i l u).totUp j
      = s.totUp j + (fastMeasStep expK expKinv lamb L s i l u).gTmpUp j := by
  simp only [fastMeasStep]
  rw [apply_ite (fun st : FastMeasState n => st.totUp j),
    apply_ite (fun st : FastMeasState n => st.gTmpUp j)]
  by_cases h : u < fastRatio expK lamb s.config L i l
  · simp [h]
  · simp [h]

/-- Iteration count of the site-level fold of `measure_loop_det`. -/
lemma detSiteFold_number {n : ℕ} (expK : Mat n) (lamb : ℝ) (L : ℕ)
    (draws : ℕ → ℝ) (l : ℕ) (lst : List (Fin n)) (s : DetMeasState n) :
    ((lst.foldl (fun s i => detMeasStep expK lamb L s i l (draws s.number)) s)).number
      = s.number + lst.length := by
  induction lst generalizing s with
  | nil => simp
  | cons a t ih =>
      simp only [List.foldl_cons, ih, detMeasStep_number, List.length_cons]
      omega

/-- Iteration count of the slice-level fold of `measure_loop_det`. -/
lemma detSliceFold_number {n : ℕ} (expK : Mat n) (lamb : ℝ) (L : ℕ)
    (draws : ℕ → ℝ) (lst : List ℕ) (s : DetMeasState n) :
    ((lst.foldl (fun s l => (List.finRange n).foldl
        (fun s i => detMeasStep expK lamb L s i l (draws s.number)) s) s)).number
      = s.number + lst.length * n := by
  induction lst generalizing s with
  | nil => simp
  | cons a t ih =>
      simp only [List.foldl_cons, ih, detSiteFold_number, List.length_finRange,
        List.length_cons]
      ring

/-- Iteration count of `measure_loop_det`: every (sweep, slice, site) triple
is stepped exactly once, regardless of the draws. -/
lemma detMeasRun_number {n : ℕ} (expK : Mat n) (lamb : ℝ) (L sweeps : ℕ)
    (draws : ℕ → ℝ) (s0 : DetMeasState n) :
    (detMeasRun expK lamb L sweeps draws s0).number = s0.number + sweeps * (L * n) := by
  unfold detMeasRun
  induction sweeps generalizing s0 with
  | zero => simp
  | succ k ih =>
      rw [List.range_succ, List.foldl_append, List.foldl_cons, List.foldl_nil,
        detSliceFold_number, ih]
      simp only [List.length_reverse, List.length_range]
      ring

/-- Iteration count of the slice-level fold of the fast `measure_loop`. -/
lemma fastSliceFold_number {n : ℕ} (expK expKinv : Mat n) (lamb : ℝ) (L : ℕ)
    (draws : ℕ → ℝ) (i : Fin n) (lst : List ℕ) (s : FastMeasState n) :
    ((lst.foldl (fun s l => fastMeasStep expK expKinv lamb L s i l (draws s.number)) s)).number
      = s.number + lst.length := by
  induction lst generalizing s with
  | nil => simp
  | cons a t ih =>
      simp only [List.foldl_cons, ih, fastMeasStep_number, List.length_cons]
      omega

/-- Iteration count of the site-level fold of the fast `measure_loop`. -/
lemma fastSiteFold_number {n : ℕ} (expK expKinv : Mat n) (lamb : ℝ) (L : ℕ)
    (draws : ℕ → ℝ) (lst : List (Fin n)) (s : FastMeasState n) :
    ((lst.foldl (fun s i => (List.range L).foldl
        (fun s l => fastMeasStep expK expKinv lamb L s i l (draws s.number)) s) s)).number
      = s.number + lst.length * L := by
  induction lst generalizing s with
  | nil => simp
  | cons a t ih =>
      simp only [List.foldl_cons, ih, fastSliceFold_number, List.length_range,
        List.length_cons]
      ring

/-- Iteration count of the fast `measure_loop`: every (sweep, site, slice)
triple is stepped exactly once, regardless of the draws. -/
lemma fastMeasRun_number {n : ℕ} (expK expKinv : Mat n) (lamb : ℝ)
    (L sweeps : ℕ) (draws : ℕ → ℝ) (s0 : FastMeasState n) :
    (fastMeasRun expK expKinv lamb L sweeps draws s0).number
      = s0.number + sweeps * (n * L) := by
  unfold fastMeasRun
  induction sweeps generalizing s0 with
  | zero => simp
  | succ k ih =>
      rw [List.range_succ, List.foldl_append, List.foldl_cons, List.foldl_nil,
        fastSiteFold_number, ih]
      simp only [List.length_finRange]
      ring

/-- Accepted det-mode iteration: the slice-`l` total receives the freshly
inverted cyclic M matrix. -/
lemma detMeasStep_totUp_accept {n : ℕ} (expK : Mat n) (lamb : ℝ) (L : ℕ)
    (s : DetMeasState n) (i : Fin n) (l : ℕ) (u : ℝ)
    (h : u < (mMatCyclic expK lamb (Config.update s.config i l) L 1 l).det
        * (mMatCyclic expK lamb (Config.update s.config i l) L (-1) l).det / s.oldW) :
    (detMeasStep expK lamb L s i l u).totUp l
      = s.totUp l + (mMatCyclic expK lamb (Config.update s.config i l) L 1 l)⁻¹ := by
  simp only [detMeasStep, if_pos h]
  simp

/-! ### Claim theorems -/

/-- Claim C1 (code bug): at one site, one time slice, `lamb = 1`,
`exp_k = I` (the solver state for `U = 0`, `mu = 0`, `t = 0`, `dtau = 1`,
see `expKinit_zero`) and the all-ones field, the fast-mode ratio for the
flip at `(0, 0)` does NOT equal the ratio of fully recomputed determinant
products: the latter is exactly 1 (flipping the only site changes
`det(M_up)·det(M_dn)` into itself), while the fast formula gives
`(1+e⁻³)(1+e³)/((1+e⁻¹)(1+e)) > 1`, because the `Δ = exp(∓2λh)-1` it uses
corresponds to the opposite field-exponential sign from the one `_m`
actually builds (`_exp_v`'s `inv=True` default). -/
theorem claim1_fast_ratio_bug :
    fastRatio (1 : Mat 1) 1 cfgOne 1 0 0 ≠ detRecomputeRatio (1 : Mat 1) 1 cfgOne 1 0 0 := by
  have hx1 : (1 : ℝ) < Real.exp 1 := Real.one_lt_exp_iff.mpr one_pos
  have hx0 : (0 : ℝ) < Real.exp 1 := Real.exp_pos 1
  have hdet : detRecomputeRatio (1 : Mat 1) 1 cfgOne 1 0 0 = 1 := by
    simp only [detRecomputeRatio, Matrix.det_fin_one, mMat_L1_entry]
    norm_num [Config.update, cfgOne]
    rw [Real.exp_neg]
    have hne2 : (1 : ℝ) + (Real.exp 1)⁻¹ ≠ 0 := by positivity
    field_simp
    ring
  have hfast : fastRatio (1 : Mat 1) 1 cfgOne 1 0 0
      = (1 + (1 - (1 + Real.exp (-1 : ℝ))⁻¹) * (Real.exp (-2 : ℝ) - 1))
        * (1 + (1 - (1 + Real.exp (1 : ℝ))⁻¹) * (Real.exp (2 : ℝ) - 1)) := by
    simp only [fastRatio, inv_entry_one, mMat_L1_entry]
    norm_num [cfgOne]
  rw [hfast, hdet]
  rw [show Real.exp (-1 : ℝ) = (Real.exp 1)⁻¹ from Real.exp_neg 1,
    show Real.exp (-2 : ℝ) = (Real.exp 2)⁻¹ from Real.exp_neg 2,
    show Real.exp (2 : ℝ) = Real.exp 1 * Real.exp 1 by
      rw [show (2 : ℝ) = 1 + 1 by norm_num, Real.exp_add]]
  set x := Real.exp 1 with hxdef
  have hxne : x ≠ 0 := ne_of_gt hx0
  have hne1 : (1 : ℝ) + x ≠ 0 := by positivity
  have hne2 : (1 : ℝ) + x⁻¹ ≠ 0 := by positivity
  have hP : (1 + (1 - (1 + x⁻¹)⁻¹) * ((x * x)⁻¹ - 1))
        * (1 + (1 - (1 + x)⁻¹) * (x * x - 1))
      = (x * x - x + 1) ^ 2 / (x * x) := by
    field_simp
    ring
  rw [hP]
  intro h
  rw [div_eq_one_iff_eq (by positivity)] at h
  have hp : (0 : ℝ) < (x - 1) ^ 2 := by
    have : (0 : ℝ) < x - 1 := by linarith
    positivity
  have hq : (0 : ℝ) < x * x + 1 := by positivity
  nlinarith [mul_pos hp hq]

/-- Claim C2 (code bug): at the same one-site, one-slice state, applying the
code's rank-1 update (with the up-spin `delta = exp(-2λh) - 1 = e⁻² - 1`) to
the exact Green's function `inv(M_up)` yields `1/(1+e⁻³)`, whereas the
directly re-inverted M matrix of the flipped configuration is `1/(1+e)`:
the Sherman-Morrison step updates the inverse for the WRONG rank-1 change
(again the `_exp_v` `inv=True` sign), so it does not reproduce the
recomputed inverse. -/
theorem claim2_sm_update_bug :
    smUpdate ((mMat (1 : Mat 1) 1 cfgOne 1 1)⁻¹) 0 (Real.exp (-2 : ℝ) - 1)
      ≠ (mMat (1 : Mat 1) 1 (Config.update cfgOne 0 0) 1 1)⁻¹ := by
  have hx1 : (1 : ℝ) < Real.exp 1 := Real.one_lt_exp_iff.mpr one_pos
  have hx0 : (0 : ℝ) < Real.exp 1 := Real.exp_pos 1
  set x := Real.exp 1 with hxdef
  have hy : Real.exp (-1 : ℝ) = x⁻¹ := by rw [hxdef, ← Real.exp_neg]
  have hm2 : Real.exp (-2 : ℝ) = (x * x)⁻¹ := by
    rw [show (-2 : ℝ) = -(2 : ℝ) by norm_num, Real.exp_neg, hxdef,
      show (2 : ℝ) = 1 + 1 by norm_num, Real.exp_add]
  have hxne : x ≠ 0 := ne_of_gt hx0
  have hne1 : (1 : ℝ) + x ≠ 0 := by positivity
  have hne2 : (1 : ℝ) + x⁻¹ ≠ 0 := by positivity
  have hcube : x ^ 3 + 1 ≠ 0 := by positivity
  have hA : (mMat (1 : Mat 1) 1 cfgOne 1 1) 0 0 = 1 + x⁻¹ := by
    rw [mMat_L1_entry]
    norm_num [cfgOne, hy]
  have hA' : (mMat (1 : Mat 1) 1 (Config.update cfgOne 0 0) 1 1) 0 0 = 1 + x := by
    rw [mMat_L1_entry]
    norm_num [Config.update, cfgOne]
  have hxx : x ^ 2 * (x + 1) ≠ 0 := by positivity
  have hcond : (1 : ℝ) + ((x * x)⁻¹ - 1) * (1 - (1 + x⁻¹)⁻¹)
      = (x ^ 3 + 1) / (x ^ 2 * (x + 1)) := by
    field_simp
    ring
  have hcondNe : (1 : ℝ) + ((x * x)⁻¹ - 1) * (1 - (1 + x⁻¹)⁻¹) ≠ 0 := by
    rw [hcond]
    positivity
  have hentry : smUpdate ((mMat (1 : Mat 1) 1 cfgOne 1 1)⁻¹) 0
      (Real.exp (-2 : ℝ) - 1) 0 0 = x ^ 3 / (x ^ 3 + 1) := by
    simp only [smUpdate, Matrix.sub_apply, Matrix.of_apply, reduceIte,
      inv_entry_one, hA, hm2]
    rw [smUpdate_entry_val ((1 + x⁻¹)⁻¹) ((x * x)⁻¹ - 1) hcondNe, hcond]
    field_simp
    ring
  intro h
  have he := congrFun (congrFun h 0) 0
  rw [hentry, inv_entry_one, hA'] at he
  rw [div_eq_iff hcube] at he
  have hg1 : (1 : ℝ) < x * x := by
    nlinarith [mul_pos (sub_pos.mpr hx1) (show (0 : ℝ) < x + 1 by linarith)]
  have hgrow2 : (1 : ℝ) < x * x * (x * x) := by
    nlinarith [mul_pos (sub_pos.mpr hg1) (show (0 : ℝ) < x * x + 1 by positivity)]
  field_simp at he
  nlinarith [he, hgrow2]

/-- Claim C3 (code bug): at one site with two time slices, `lamb = 1`,
`exp_k = exp_k_inv = I` (the cached solver state for `ham_kin = 0`, in which
`B` and its inverse are the SAME matrix only because of the degenerate
instance — the recursion is wrong in general), the wrapped slice produced by
`_gf_tau` from the directly-inverted reference `g_beta = inv(_m)` equals
`e⁻² · g_beta`, which is NOT the direct-inversion Green's function of the
re-rooted M matrix at either slice (both equal `g_beta` here): `_gf_tau`
multiplies by `b` twice instead of conjugating by `b⁻¹ … b`, because
`_exp_v(l, sigma)` with the default `inv=True` returns the inverse
exponential and `exp_k_inv` equals `exp_k`. -/
theorem claim3_gf_wrap_bug :
    gfTauRec (1 : Mat 1) (1 : Mat 1) 1 cfgOne 1 ((mMat (1 : Mat 1) 1 cfgOne 2 1)⁻¹) 1
        ≠ (mMatCyclic (1 : Mat 1) 1 cfgOne 2 1 0)⁻¹ ∧
      gfTauRec (1 : Mat 1) (1 : Mat 1) 1 cfgOne 1 ((mMat (1 : Mat 1) 1 cfgOne 2 1)⁻¹) 1
        ≠ (mMatCyclic (1 : Mat 1) 1 cfgOne 2 1 1)⁻¹ := by
  have hy0 : (0 : ℝ) < Real.exp (-1 : ℝ) := Real.exp_pos _
  have hy1 : Real.exp (-1 : ℝ) < 1 := Real.exp_lt_one_iff.mpr (by norm_num)
  have hgb : ((mMat (1 : Mat 1) 1 cfgOne 2 1)⁻¹) 0 0
      = (1 + Real.exp (-1 : ℝ) * Real.exp (-1 : ℝ))⁻¹ := by
    rw [inv_entry_one, mMat_L2_entry]
    norm_num [cfgOne]
  have hwrap : (gfTauRec (1 : Mat 1) (1 : Mat 1) 1 cfgOne 1
      ((mMat (1 : Mat 1) 1 cfgOne 2 1)⁻¹) 1) 0 0
      = Real.exp (-1 : ℝ) * (1 + Real.exp (-1 : ℝ) * Real.exp (-1 : ℝ))⁻¹
        * Real.exp (-1 : ℝ) := by
    show ((expV 1 1 (fun i => cfgOne i 1) true * 1)
        * (mMat (1 : Mat 1) 1 cfgOne 2 1)⁻¹
        * (expV 1 1 (fun i => cfgOne i 1) true * 1)) 0 0 = _
    rw [mul_entry_one, mul_entry_one, mul_entry_one, hgb]
    norm_num [expV, cfgOne]
  have hden : (1 : ℝ) + Real.exp (-1 : ℝ) * Real.exp (-1 : ℝ) ≠ 0 := by positivity
  have hsq : Real.exp (-1 : ℝ) * Real.exp (-1 : ℝ) < 1 := by
    nlinarith [mul_pos (sub_pos.mpr hy1)
      (show (0 : ℝ) < 1 + Real.exp (-1 : ℝ) by positivity)]
  constructor
  · intro h
    have he := congrFun (congrFun h 0) 0
    rw [hwrap, inv_entry_one, mMatCyclic_L2_root0_entry] at he
    norm_num [cfgOne] at he
    field_simp at he
    nlinarith [he, hsq]
  · intro h
    have he := congrFun (congrFun h 0) 0
    rw [hwrap, inv_entry_one, mMatCyclic_L2_root1_entry] at he
    norm_num [cfgOne] at he
    field_simp at he
    nlinarith [he, hsq]

/-- Claim C4 (code bug): at one site, two slices, `ham_kin = 0`, `dtau = 1`,
`lamb = 1`, spin up, all-ones field: `compute_m` (mc_fast.py) returns
`1 + e` — its loop `reversed(range(1, lmax))` OMITS slice 0 entirely, and its
factor order is `exp_k·exp_v` — while the spec-side ordered product
`I + B(1)·B(0)` with `B(l) = exp(σλV(l))·exp(Δτ·H_kin)` is `1 + e²`; the
lqmc `_m` returns `1 + e⁻²`, using `exp(-σλV)` (the `inv=True` default of
`_exp_v`) in place of `exp(+σλV)`.  Neither builder matches the claimed
product. -/
theorem claim4_m_builder_bug :
    compute_m (0 : Mat 1) cfgOne 1 1 2 1 ≠ mSpec (1 : Mat 1) 1 cfgOne 2 1 ∧
      mMat (1 : Mat 1) 1 cfgOne 2 1 ≠ mSpec (1 : Mat 1) 1 cfgOne 2 1 := by
  have hx1 : (1 : ℝ) < Real.exp 1 := Real.one_lt_exp_iff.mpr one_pos
  have hx0 : (0 : ℝ) < Real.exp 1 := Real.exp_pos 1
  have hy1 : Real.exp (-1 : ℝ) < 1 := Real.exp_lt_one_iff.mpr (by norm_num)
  have hy0 : (0 : ℝ) < Real.exp (-1 : ℝ) := Real.exp_pos _
  have hcm : (compute_m (0 : Mat 1) cfgOne 1 1 2 1) 0 0 = 1 + Real.exp 1 := by
    simp only [compute_m, smul_zero, expm_zero]
    norm_num [List.range', Matrix.add_apply, Matrix.one_apply_eq,
      Matrix.one_mul, Matrix.diagonal_apply_eq, cfgOne]
  have hsp : (mSpec (1 : Mat 1) 1 cfgOne 2 1) 0 0
      = 1 + Real.exp 1 * Real.exp 1 := by
    simp only [mSpec]
    norm_num [List.range_succ, Matrix.add_apply, Matrix.one_apply_eq,
      Matrix.mul_one, Matrix.one_mul, Matrix.diagonal_mul_diagonal,
      Matrix.diagonal_apply_eq, cfgOne]
  constructor
  · intro h
    have he := congrFun (congrFun h 0) 0
    rw [hcm, hsp] at he
    nlinarith [he, hx1, hx0]
  · intro h
    have he := congrFun (congrFun h 0) 0
    rw [mMat_L2_entry, hsp] at he
    norm_num [cfgOne] at he
    nlinarith [he, hx1, hy1, hy0, mul_pos hy0 hy0]

/-- Claim C10: with `U = 0` the constructor sets `lamb = 1` rather than the
formula value `arccosh(exp(0)) = 0`; for every nonzero `U` it sets
`lamb = arccosh(exp(U*dtau/2))`. -/
theorem claim10_lambda (dtau u : ℝ) (hu : u ≠ 0) :
    lambdaOf 0 dtau = 1 ∧ arccosh (Real.exp (0 * dtau / 2)) = 0 ∧
      lambdaOf u dtau = arccosh (Real.exp (u * dtau / 2)) := by
  refine ⟨by simp [lambdaOf], ?_, by simp [lambdaOf, hu]⟩
  norm_num [arccosh]

/-- Witness for C10 at `dtau = 1`, `u = 2`. -/
theorem claim10_lambda_witness :
    lambdaOf 0 1 = 1 ∧ arccosh (Real.exp (0 * 1 / 2)) = 0 ∧
      lambdaOf 2 1 = arccosh (Real.exp (2 * 1 / 2)) :=
  claim10_lambda 1 2 (by norm_num)

/-- Claim C8, counterexample: `measure_loop_det` does NOT return the totals
divided by the iteration count — it additionally multiplies by `time_steps`
(line 305: `g_total_up / number * self.time_steps`).  At one site, two
slices, one sweep, `exp_k = I`, `lamb = 1`, all-ones field and draws that
accept every move, the returned slice-1 entry is twice the totals/number
value. -/
theorem claim8_det_norm_counterexample :
    (measureLoopDet (1 : Mat 1) 1 cfgOne 2 1 (fun _ => 0)).1 1
      ≠ ((detMeasRun (1 : Mat 1) 1 2 1 (fun _ => 0)
            (detMeasInit (1 : Mat 1) 1 cfgOne 2)).number : ℝ)⁻¹
        • (detMeasRun (1 : Mat 1) 1 2 1 (fun _ => 0)
            (detMeasInit (1 : Mat 1) 1 cfgOne 2)).totUp 1 := by
  have hrun : detMeasRun (1 : Mat 1) 1 2 1 (fun _ => 0)
        (detMeasInit (1 : Mat 1) 1 cfgOne 2)
      = detMeasStep (1 : Mat 1) 1 2
          (detMeasStep (1 : Mat 1) 1 2 (detMeasInit (1 : Mat 1) 1 cfgOne 2) 0 1 0)
          0 0 0 := rfl
  have hmU1 : (mMatCyclic (1 : Mat 1) 1 (Config.update cfgOne 0 1) 2 1 1) 0 0 = 2 := by
    rw [mMatCyclic_L2_root1_entry]
    norm_num [Config.update, cfgOne]
    rw [← Real.exp_add]
    norm_num
  have hmD1 : (mMatCyclic (1 : Mat 1) 1 (Config.update cfgOne 0 1) 2 (-1) 1) 0 0 = 2 := by
    rw [mMatCyclic_L2_root1_entry]
    norm_num [Config.update, cfgOne]
    rw [← Real.exp_add]
    norm_num
  have holdW : (detMeasInit (1 : Mat 1) 1 cfgOne 2).oldW
      = (1 + Real.exp (-1 : ℝ) * Real.exp (-1 : ℝ))
        * (1 + Real.exp 1 * Real.exp 1) := by
    simp only [detMeasInit, Matrix.det_fin_one, mMat_L2_entry]
    norm_num [cfgOne]
  have hc1 : (0 : ℝ) < (mMatCyclic (1 : Mat 1) 1
        (Config.update (detMeasInit (1 : Mat 1) 1 cfgOne 2).config 0 1) 2 1 1).det
      * (mMatCyclic (1 : Mat 1) 1
        (Config.update (detMeasInit (1 : Mat 1) 1 cfgOne 2).config 0 1) 2 (-1) 1).det
      / (detMeasInit (1 : Mat 1) 1 cfgOne 2).oldW := by
    have hcfg : (detMeasInit (1 : Mat 1) 1 cfgOne 2).config = cfgOne := rfl
    rw [hcfg, Matrix.det_fin_one, Matrix.det_fin_one, hmU1, hmD1, holdW]
    positivity
  have hnum : (detMeasRun (1 : Mat 1) 1 2 1 (fun _ => 0)
      (detMeasInit (1 : Mat 1) 1 cfgOne 2)).number = 2 := by
    rw [hrun, detMeasStep_number, detMeasStep_number]
    rfl
  have htot : (detMeasRun (1 : Mat 1) 1 2 1 (fun _ => 0)
        (detMeasInit (1 : Mat 1) 1 cfgOne 2)).totUp 1 0 0 = 2⁻¹ := by
    rw [hrun, detMeasStep_totUp_ne _ _ _ _ _ _ _ _ (by norm_num : (1 : ℕ) ≠ 0)]
    rw [detMeasStep_totUp_accept _ _ _ _ _ _ _ hc1]
    have hinit : (detMeasInit (1 : Mat 1) 1 cfgOne 2).totUp 1 = 0 := rfl
    have hcfg : (detMeasInit (1 : Mat 1) 1 cfgOne 2).config = cfgOne := rfl
    rw [hcfg, hinit, zero_add, inv_entry_one, hmU1]
  intro h
  have he := congrFun (congrFun h 0) 0
  simp only [measureLoopDet, Matrix.smul_apply, hnum, htot] at he
  norm_num at he

/-- Claim C8, amended: both measurement variants accumulate a contribution at
every (sweep, site, slice) iteration regardless of acceptance and count
`number = sweeps·L·N` total iterations (independent of the draws, i.e. never
the accepted count); the fast variant returns the totals divided by that
total iteration count, while the det variant returns the totals divided by
the total iteration count AND multiplied by `L` (equivalently, each slice —
which receives one contribution per site per sweep — is averaged over
`sweeps·N`). -/
theorem claim8_normalization_amended {n : ℕ} (expK expKinv : Mat n) (lamb : ℝ)
    (config : Config n) (L sweeps : ℕ) (draws : ℕ → ℝ) (l : ℕ) :
    (detMeasRun expK lamb L sweeps draws (detMeasInit expK lamb config L)).number
        = sweeps * (L * n) ∧
      (measureLoopDet expK lamb config L sweeps draws).1 l
        = (((sweeps * (L * n) : ℕ) : ℝ)⁻¹ * (L : ℝ))
          • (detMeasRun expK lamb L sweeps draws
              (detMeasInit expK lamb config L)).totUp l ∧
      (∀ (s : DetMeasState n) (i : Fin n) (u : ℝ),
        (detMeasStep expK lamb L s i l u).number = s.number + 1 ∧
        (detMeasStep expK lamb L s i l u).totUp l
          = s.totUp l + (detMeasStep expK lamb L s i l u).gUp l) ∧
      (fastMeasRun expK expKinv lamb L sweeps draws
          (fastMeasInit expK expKinv lamb config L)).number = sweeps * (n * L) ∧
      (measureLoopFast expK expKinv lamb config L sweeps draws).1 l
        = ((sweeps * (n * L) : ℕ) : ℝ)⁻¹
          • (fastMeasRun expK expKinv lamb L sweeps draws
              (fastMeasInit expK expKinv lamb config L)).totUp l ∧
      (∀ (s : FastMeasState n) (i : Fin n) (u : ℝ) (j : ℕ),
        (fastMeasStep expK expKinv lamb L s i l u).number = s.number + 1 ∧
        (fastMeasStep expK expKinv lamb L s i l u).totUp j
          = s.totUp j + (fastMeasStep expK expKinv lamb L s i l u).gTmpUp j) := by
  have hdnum : (detMeasRun expK lamb L sweeps draws
      (detMeasInit expK lamb config L)).number = sweeps * (L * n) := by
    rw [detMeasRun_number]
    simp [detMeasInit]
  have hfnum : (fastMeasRun expK expKinv lamb L sweeps draws
      (fastMeasInit expK expKinv lamb config L)).number = sweeps * (n * L) := by
    rw [fastMeasRun_number]
    simp [fastMeasInit]
  refine ⟨hdnum, ?_, ?_, hfnum, ?_, ?_⟩
  · simp only [measureLoopDet, hdnum]
  · intro s i u
    exact ⟨detMeasStep_number expK lamb L s i l u,
      detMeasStep_totUp expK lamb L s i l u⟩
  · simp only [measureLoopFast, hfnum]
  · intro s i u j
    exact ⟨fastMeasStep_number expK expKinv lamb L s i l u,
      fastMeasStep_totUp expK expKinv lamb L s i l j u⟩

/-- Claim C9 (code bug): for `L = 3`, `U = 2`, `t = 1`, `mu = 1`, the matrix
filled by `buildK` holds `+t = +1` at the adjacent pair `(0, 1)` — not `-t`
as the claim (and the function's own comment `k_ij = -t(...)`) states — and
`buildK` itself returns `None` (it has no `return` statement), not a matrix. -/
theorem claim9_buildK_bug :
    buildKMatrix 3 2 1 1 0 1 = 1 ∧ (1 : ℝ) ≠ -1 ∧ buildK 3 2 1 1 = none := by
  refine ⟨?_, by norm_num, rfl⟩
  norm_num [buildKMatrix, buildGraphEdges, buildGraphSites, writeEntry,
    List.range_succ]

/-- Claim C7 (code bug): in `warmup_loop_det`, after a rejection the names
`self.config` and `old_config` are aliased to the same object, so the next
rejected trial's flip is never rolled back.  Starting from the all-ones
configuration, reject the trial at `(0, 0)` and then the trial at `(0, 1)`:
the field at `(0, 1)` remains flipped to `-1` instead of returning to the
value `+1` it had immediately before that trial. -/
theorem claim7_rollback_bug :
    (detWarmupStep (detWarmupStep (detWarmupInit cfgOne) 0 0 false) 0 1 false).cur 0 1
      ≠ (detWarmupStep (detWarmupInit cfgOne) 0 0 false).cur 0 1 := by
  norm_num [detWarmupStep, detWarmupInit, Config.update, cfgOne]

/-- Claim C5 (code bug): the determinant of `_m` is NOT invariant under the
cyclic re-rooting performed by `_m_cyclic`.  At the realizable two-site,
three-slice solver state `exp_k = K2 = expm(1·ham2)` (see `expm_ham2`),
`lamb = 1` (`U = 0`), spin up, fields `(+1,+1), (+1,-1), (-1,+1)`:
`det(_m) - det(_m_cyclic at slice 1) = 4e⁻¹(e⁻¹-e)² ≠ 0`.  The root cause is
that both builders multiply their FIRST factor as `exp_v·exp_k` but every
later factor as `exp_k·exp_v`, so the re-rooted word is not a cyclic
rotation of the direct word — contradicting the code's own comment that
"order of the B matrices does not matter ... within a determinant". -/
theorem claim5_det_cyclic_bug :
    (mMat K2 1 cfg3 3 1).det ≠ (mMatCyclic K2 1 cfg3 3 1 1).det := by
  have hdiff : (mMat K2 1 cfg3 3 1).det - (mMatCyclic K2 1 cfg3 3 1 1).det
      = 4 * Real.exp (-1) * (Real.exp (-1) - Real.exp 1) ^ 2 := by
    rw [mMat_cfg3_unfold, mMatCyclic_cfg3_unfold, expV_cfg3_col0,
      expV_cfg3_col1, expV_cfg3_col2]
    exact det_diff_poly (Real.exp (-1)) (Real.exp 1)
  intro h
  rw [h, sub_self] at hdiff
  have hy0 : (0 : ℝ) < Real.exp (-1 : ℝ) := Real.exp_pos _
  have hne : Real.exp (-1 : ℝ) - Real.exp 1 ≠ 0 := by
    intro hz
    have h1 : Real.exp (-1 : ℝ) < 1 := Real.exp_lt_one_iff.mpr (by norm_num)
    have h2 : (1 : ℝ) < Real.exp 1 := Real.one_lt_exp_iff.mpr one_pos
    linarith
  have hsq : (0 : ℝ) < (Real.exp (-1 : ℝ) - Real.exp 1) ^ 2 :=
    (sq_nonneg _).lt_of_ne (Ne.symm (pow_ne_zero 2 hne))
  have hpos : (0 : ℝ) < 4 * Real.exp (-1 : ℝ) * (Real.exp (-1 : ℝ) - Real.exp 1) ^ 2 :=
    mul_pos (by positivity) hsq
  linarith

/-- Claim C6 (code bug): line 55 computes `exp_k_inv` with the SAME sign as
`exp_k` (`expm(+1 * dtau * ham_kin)` both).  At `dtau = 1` and the one-site
kinetic Hamiltonian `[[1]]`: `exp_k` is `expm(+dtau*H)` as claimed, but
`exp_k_inv` differs from `expm(-dtau*H)` and `exp_k_inv * exp_k ≠ I`. -/
theorem claim6_exp_k_inv_bug :
    expKinit 1 ham1 = expm ((1 : ℝ) • ham1) ∧
      expKinvInit 1 ham1 ≠ expm ((-1 : ℝ) • ham1) ∧
      expKinvInit 1 ham1 * expKinit 1 ham1 ≠ 1 := by
  have h1 : expKinvInit 1 ham1 = Matrix.diagonal fun _ : Fin 1 => Real.exp 1 := by
    unfold expKinvInit ham1
    rw [one_smul, expm_diagonal]
  have h2 : expKinit 1 ham1 = Matrix.diagonal fun _ : Fin 1 => Real.exp 1 := by
    unfold expKinit ham1
    rw [one_smul, expm_diagonal]
  refine ⟨rfl, ?_, ?_⟩
  · rw [h1]
    unfold ham1
    rw [← Matrix.diagonal_smul, expm_diagonal]
    intro h
    have he := congrFun (congrFun h 0) 0
    simp [Matrix.diagonal] at he
    norm_num at he
  · rw [h1, h2, Matrix.diagonal_mul_diagonal]
    intro h
    have he := congrFun (congrFun h 0) 0
    simp [Matrix.diagonal, Matrix.one_apply] at he
    rw [← Real.exp_add, Real.exp_eq_one_iff] at he
    norm_num at he

end LatticeQMC
